import Mathlib

/-!
Verification development for the BFV fixture-list parser of the
`platzbelegung` repository (`src/src/App.tsx`).

`App.tsx` contains two near-duplicate parser variants.  Following the
specification's design note ("Multiple near-duplicate implementations
observed in the source ... Treat §4.4/§4.5 as the target behavior to
converge on; do not reproduce the simpler variants"), this development
embeds the full pipeline variant (the `parseBFVText` at lines 399-484 of
the file, together with its helpers `normalizeSpaces`, `toISODate`,
`makeId`, `detectHomeAndSplit`, `suggestFieldFromVenue`): the variant
with the `if (!dateTimeMatch) continue` discard, venue-line
accumulation, the boilerplate skip list, the SPIELFREI filter and the
final chronological sort.

Strings are modelled as lists of characters (`JSStr`), so that every
JavaScript string operation used by the source becomes a structurally
recursive, kernel-computable Lean function.  JavaScript peculiarities
that the model fixes:
  * `\s` (and `trim`) is modelled by `isWS`, covering the ASCII
    whitespace characters and the no-break space; the exotic Unicode
    space characters of the full JS class are outside the model.
  * `toLowerCase`/`toUpperCase` are modelled on the ASCII letters plus
    the German umlauts, the only letters the compared keywords use.
  * `localeCompare` on the `dt` sort keys is modelled as code-point
    lexicographic comparison, which agrees with it on these
    digit/dash/colon strings.
  * `Array.prototype.sort` (stable since ES2019) is modelled by a
    stable insertion sort.
  * string indices are code units; all configured club-name variants
    are ASCII, where code units and characters coincide.
-/

/-- JavaScript strings are modelled as lists of characters. -/
abbrev JSStr := List Char

/-- Embed a Lean string literal into the model. -/
def str (s : String) : JSStr := s.data

/-- The whitespace class used for `\s`, `trim` and space collapsing:
ASCII whitespace plus the no-break space U+00A0. -/
def isWS (c : Char) : Bool :=
  c = ' ' || c = '\t' || c = '\n' || c = '\r' ||
  c = Char.ofNat 11 || c = Char.ofNat 12 || c = Char.ofNat 160

/-- The no-break space U+00A0. -/
def nbsp : Char := Char.ofNat 160

/-- `String.replace(/ /g, " ")` on a single character. -/
def nbspFix (c : Char) : Char := if c = nbsp then ' ' else c

/-- Drop leading whitespace (the left half of `String.prototype.trim`). -/
def trimLeft : JSStr → JSStr
  | [] => []
  | c :: cs => if isWS c then trimLeft cs else c :: cs

/-- Drop trailing whitespace (the right half of `String.prototype.trim`). -/
def trimRight : JSStr → JSStr
  | [] => []
  | c :: cs =>
    match trimRight cs with
    | [] => if isWS c then [] else [c]
    | r => c :: r

/-- `String.prototype.trim`. -/
def trimStr (s : JSStr) : JSStr := trimRight (trimLeft s)

/-- `String.replace(/\s+/g, " ")`: collapse every whitespace run to a
single space.  The flag records whether the previous character was part
of a whitespace run whose replacement space has already been emitted. -/
def collapse1 : Bool → JSStr → JSStr
  | _, [] => []
  | prevWS, c :: cs =>
    if isWS c then
      if prevWS then collapse1 true cs else ' ' :: collapse1 true cs
    else c :: collapse1 false cs

/-- `normalizeSpaces` from the source:
`s.replace(/ /g, " ").replace(/\s+/g, " ").trim()`. -/
def normalizeSpaces (s : JSStr) : JSStr :=
  trimStr (collapse1 false (s.map nbspFix))

/-- `s.split(/\r?\n/)`, accumulator holds the current line reversed. -/
def splitLinesAux : JSStr → JSStr → List JSStr
  | acc, [] => [acc.reverse]
  | acc, '\r' :: '\n' :: rest => acc.reverse :: splitLinesAux [] rest
  | acc, '\n' :: rest => acc.reverse :: splitLinesAux [] rest
  | acc, c :: rest => splitLinesAux (c :: acc) rest

/-- `txt.split(/\r?\n/)`. -/
def splitLines (s : JSStr) : List JSStr := splitLinesAux [] s

/-- `s.split(".")`, accumulator holds the current piece reversed. -/
def splitDotsAux : JSStr → JSStr → List JSStr
  | acc, [] => [acc.reverse]
  | acc, '.' :: rest => acc.reverse :: splitDotsAux [] rest
  | acc, c :: rest => splitDotsAux (c :: acc) rest

/-- `dmy.split(".")`. -/
def splitDots (s : JSStr) : List JSStr := splitDotsAux [] s

/-- `s.startsWith(p)` (subject first). -/
def startsWithL : JSStr → JSStr → Bool
  | _, [] => true
  | [], _ :: _ => false
  | c :: cs, p :: ps => c = p && startsWithL cs ps

/-- `s.endsWith(p)` (subject first). -/
def endsWithL (s p : JSStr) : Bool :=
  if p.length ≤ s.length then s.drop (s.length - p.length) = p else false

/-- `s.includes(p)` (subject first). -/
def containsL : JSStr → JSStr → Bool
  | [], p => p.isEmpty
  | c :: cs, p => startsWithL (c :: cs) p || containsL cs p

/-- Helper for `s.lastIndexOf(p)`: the largest index at or after `i`
where `p` occurs in `s`, counting from offset `i`. -/
def lastIndexOfAux : JSStr → JSStr → Nat → Option Nat
  | s, p, i =>
    match s with
    | [] => if p.isEmpty then some i else none
    | c :: cs =>
      match lastIndexOfAux cs p (i + 1) with
      | some j => some j
      | none => if startsWithL (c :: cs) p then some i else none

/-- `s.lastIndexOf(p)` (subject first).  In the source this is only
evaluated when `p` is known to occur in `s`, so the JS `-1` miss result
is modelled by an unreachable `0` fallback. -/
def lastIndexOfL (s p : JSStr) : Nat := (lastIndexOfAux s p 0).getD 0

/-- `toLowerCase`, modelled on ASCII letters and the German umlauts
(the only letters occurring in the compared keywords). -/
def lowerChar (c : Char) : Char :=
  if 'A' ≤ c && c ≤ 'Z' then Char.ofNat (c.toNat + 32)
  else if c = 'Ä' then 'ä' else if c = 'Ö' then 'ö' else if c = 'Ü' then 'ü'
  else c

/-- `s.toLowerCase()`. -/
def lowerStr (s : JSStr) : JSStr := s.map lowerChar

/-- `toUpperCase`, modelled on ASCII letters and the German umlauts. -/
def upperChar (c : Char) : Char :=
  if 'a' ≤ c && c ≤ 'z' then Char.ofNat (c.toNat - 32)
  else if c = 'ä' then 'Ä' else if c = 'ö' then 'Ö' else if c = 'ü' then 'Ü'
  else c

/-- `s.toUpperCase()`. -/
def upperStr (s : JSStr) : JSStr := s.map upperChar

/-- Decimal digits of a natural number, most significant first
(fuel-driven so the kernel can evaluate it). -/
def natDigitsAux : Nat → Nat → JSStr
  | 0, _ => []
  | fuel + 1, n =>
    if n < 10 then [Nat.digitChar n]
    else natDigitsAux fuel (n / 10) ++ [Nat.digitChar (n % 10)]

/-- `String(n)` for a natural number. -/
def natDigits (n : Nat) : JSStr := natDigitsAux (n + 1) n

/-- `String(n).padStart(k, "0")`. -/
def padZero (k : Nat) (s : JSStr) : JSStr :=
  if k ≤ s.length then s else List.replicate (k - s.length) '0' ++ s

/-- JS `Number(s)` restricted to the shapes `toISODate` meets: the empty
string is `0`, an all-digit string is its value, anything else is `NaN`
(`none`).  Signs, decimals and exponents never reach this code because
the date components come from a `\d{2}\.\d{2}\.\d{4}` match. -/
def jsNumber (s : JSStr) : Option Nat :=
  if s.isEmpty then some 0
  else if s.all Char.isDigit then
    some (s.foldl (fun acc c => 10 * acc + (c.toNat - 48)) 0)
  else none

/-- Gregorian leap year (JS `Date` uses the proleptic Gregorian calendar). -/
def isLeapYear (y : Nat) : Bool := y % 4 = 0 && (y % 100 ≠ 0 || y % 400 = 0)

/-- Days in a (1-based) month of a year. -/
def daysInMonth (y m : Nat) : Nat :=
  if m = 2 then (if isLeapYear y then 29 else 28)
  else if m = 4 || m = 6 || m = 9 || m = 11 then 30 else 31

/-- Day-overflow normalization of `new Date(y, m-1, d)`: subtract month
lengths while the day exceeds them.  The day is at most 99, so fuel 5
is enough (three subtractions of at least 28 already go below 1). -/
def rollDays : Nat → Nat → Nat → Nat → Nat × Nat × Nat
  | 0, y, m, d => (y, m, d)
  | fuel + 1, y, m, d =>
    if d ≤ daysInMonth y m then (y, m, d)
    else if m = 12 then rollDays fuel (y + 1) 1 (d - daysInMonth y m)
    else rollDays fuel y (m + 1) (d - daysInMonth y m)

/-- `dayjs(...).format("YYYY-MM-DD")` field output. -/
def fmtYmd (y m d : Nat) : JSStr :=
  padZero 4 (natDigits y) ++ str "-" ++ padZero 2 (natDigits m) ++
    str "-" ++ padZero 2 (natDigits d)

/-- Modelled from the dayjs library (an external dependency of the
source): `dayjs("y-mm-dd").format("YYYY-MM-DD")` for the numbers
`toISODate` produces.  A four-digit year string takes dayjs's own
string-parse path, which builds `new Date(y, m - 1, d)` and therefore
normalizes month and day overflow by rollover.  Shorter year strings
fall through to the host `Date` parser, modelled after V8: an in-range
calendar date parses, anything else is an invalid date. -/
def dayjsYmd (y m d : Nat) : JSStr :=
  if 1000 ≤ y ∧ y ≤ 9999 ∧ m ≤ 99 ∧ d ≤ 99 then
    -- months normalize first: `new Date(y, m - 1, d)`
    let monthsTotal := y * 12 + m - 1
    let y0 := monthsTotal / 12
    let m1 := monthsTotal % 12 + 1
    if d = 0 then
      -- day 0 is the last day of the previous month
      let y' := if m1 = 1 then y0 - 1 else y0
      let m' := if m1 = 1 then 12 else m1 - 1
      fmtYmd y' m' (daysInMonth y' m')
    else
      let (y2, m2, d2) := rollDays 5 y0 m1 d
      fmtYmd y2 m2 d2
  else if y < 1000 ∧ 1 ≤ m ∧ m ≤ 12 ∧ 1 ≤ d ∧ d ≤ daysInMonth y m then
    fmtYmd y m d
  else str "Invalid Date"

/-- `toISODate` from the source:
`const [d, m, y] = dmy.split(".").map(Number)` followed by
`dayjs(y-mm-dd).format("YYYY-MM-DD")`.  A missing component is
`undefined`, which `Number` turns into `NaN` (`none`), and dayjs turns
a `NaN` component into an invalid date. -/
def toISODate (dmy : JSStr) : JSStr :=
  let parts := splitDots dmy
  match (parts.get? 0).bind jsNumber, (parts.get? 1).bind jsNumber,
      (parts.get? 2).bind jsNumber with
  | some d, some m, some y => dayjsYmd y m d
  | _, _, _ => str "Invalid Date"

/-- The fixed field enumeration `FIELDS` of the source
(`"A" | "B" | "C" | "Frimmersdorf" | "Vestenbergsgreuth" |
"ASV Weisendorf Kunstrasen"`). -/
inductive FieldName where
  | A
  | B
  | C
  | Frimmersdorf
  | Vestenbergsgreuth
  | WeisendorfKunstrasen
deriving DecidableEq

/-- The configured home-club name variants, in source order. -/
def OUR_TEAM_PREFIXES : List JSStr :=
  [str "(SG) TSV Lonnerstadt II/ASV Weisendorf",
   str "TSV Lonnerstadt 2 (7er)",
   str "TSV Lonnerstadt AH",
   str "TSV Lonnerstadt 3",
   str "TSV Lonnerstadt 2",
   str "TSV Lonnerstadt/ ASV Weisendorf",
   str "(SG) TSV Lonnerstadt II",
   str "(SG) TSV Lonnerstadt",
   str "TSV Lonnerstadt"]

/-- Stable insertion of `x` in front of the first element it compares
strictly below; elements comparing equal keep their earlier position. -/
def insBefore (lt : α → α → Bool) (x : α) : List α → List α
  | [] => [x]
  | y :: ys => if lt x y then x :: y :: ys else y :: insBefore lt x ys

/-- Stable sort (the ES2019 `Array.prototype.sort` contract): insert the
elements left to right, each after its equals. -/
def stableSort (lt : α → α → Bool) (l : List α) : List α :=
  l.foldl (fun acc x => insBefore lt x acc) []

/-- `OUR_TEAM_PREFIXES.sort((a, b) => b.length - a.length)`: the variant
list in descending length order.  The source sorts the module-level
array in place on every call of `detectHomeAndSplit`, so both matching
phases see this order. -/
def sortedVariants : List JSStr :=
  stableSort (fun a b => decide (b.length < a.length)) OUR_TEAM_PREFIXES

/-- Result record of `detectHomeAndSplit`. -/
structure SplitResult where
  homeTeam : JSStr
  awayTeam : JSStr
  isHome : Bool
deriving DecidableEq

/-- The left-anchored test of matching phase 1:
`text.startsWith(p + " ") || text === p`. -/
def leftMatches (p text : JSStr) : Bool :=
  startsWithL text (p ++ [' ']) || text = p

/-- Matching phase 1: first variant (in descending length order) that
matches left-anchored wins; returns it with the trimmed remainder
`text.slice(p.length).trim()`. -/
def leftScan : List JSStr → JSStr → Option (JSStr × JSStr)
  | [], _ => none
  | p :: ps, text =>
    if leftMatches p text then some (p, trimStr (text.drop p.length))
    else leftScan ps text

/-- The right-anchored/embedded test of matching phase 2:
`text.endsWith(" " + p) || text === p || text.includes(" " + p)`. -/
def rightCond (text p : JSStr) : Bool :=
  endsWithL text (' ' :: p) || text = p || containsL text (' ' :: p)

/-- `detectHomeAndSplit` from the source. -/
def detectHomeAndSplit (pairing : JSStr) : SplitResult :=
  let text := normalizeSpaces pairing
  match leftScan sortedVariants text with
  | some (p, rest) => ⟨p, rest, true⟩
  | none =>
    match sortedVariants.find? (rightCond text) with
    | some p =>
      let idx := lastIndexOfL text p
      ⟨trimStr (text.take idx), p, false⟩
    | none => ⟨text, [], false⟩

/-- `suggestFieldFromVenue` from the source (full variant, which
recognizes both home-ground phrases). -/
def suggestFieldFromVenue (venue : JSStr) : Option FieldName :=
  let v := lowerStr venue
  if containsL v (str "frimmersdorf") then some .Frimmersdorf
  else if containsL v (str "vestenbergsgreuth") then some .Vestenbergsgreuth
  else if containsL v (str "weisendorf") && containsL v (str "kunstrasen") then
    some .WeisendorfKunstrasen
  else if containsL v (str "am sonnenhügel") || containsL v (str "sportgelände") then
    if containsL v (str "platz 1") then some .A
    else if containsL v (str "platz 2") then some .B
    else if containsL v (str "platz 3") then some .C
    else some .A
  else none

/-- The `\d{2}\.\d{2}\.\d{4}` date shape. -/
def dateShape (s : JSStr) : Bool :=
  match s with
  | [a, b, '.', c, d, '.', e, f, g, h] =>
    a.isDigit && b.isDigit && c.isDigit && d.isDigit &&
    e.isDigit && f.isDigit && g.isDigit && h.isDigit
  | _ => false

/-- The `\d{2}:\d{2}` time shape. -/
def timeShape (s : JSStr) : Bool :=
  match s with
  | [a, b, ':', c, d] => a.isDigit && b.isDigit && c.isDigit && d.isDigit
  | _ => false

/-- Attempt the tail of the row pattern
`(\d{2}\.\d{2}\.\d{4})\s((?:\d{2}:\d{2})|SPIELFREI)\s(.*)$` at a fixed
position (just after the `\s` that ends the lazy group).  The two time
alternatives start with a digit and the letter S respectively, so they
never overlap and no cross-backtracking arises. -/
def tryTail (s : JSStr) : Option (JSStr × JSStr × JSStr) :=
  let date := s.take 10
  if dateShape date then
    match s.drop 10 with
    | w :: s2 =>
      if isWS w then
        if timeShape (s2.take 5) then
          match s2.drop 5 with
          | w2 :: rest => if isWS w2 then some (date, s2.take 5, rest) else none
          | [] => none
        else if s2.take 9 = str "SPIELFREI" then
          match s2.drop 9 with
          | w2 :: rest => if isWS w2 then some (date, str "SPIELFREI", rest) else none
          | [] => none
        else none
      else none
    | [] => none
  else none

/-- The row pattern
`^(.*?)\s(\d{2}\.\d{2}\.\d{4})\s((?:\d{2}:\d{2})|SPIELFREI)\s(.*)$`:
the lazy `(.*?)` means the earliest split position wins.  `pre` holds
the group-1 characters scanned so far, reversed. -/
def scanDT : JSStr → JSStr → Option (JSStr × JSStr × JSStr × JSStr)
  | _, [] => none
  | pre, c :: rest =>
    match (if isWS c then tryTail rest else none) with
    | some (d, t, p) => some (pre.reverse, d, t, p)
    | none => scanDT (c :: pre) rest

/-- The two-letter match-type codes `FS | ME | PO`. -/
def matchCodes : List JSStr := [str "FS", str "ME", str "PO"]

/-- `isRowStart`: the test `/^(FS|ME|PO)\s+/.test(l)`. -/
def isRowStart (l : JSStr) : Bool :=
  match l with
  | a :: b :: w :: _ => matchCodes.contains [a, b] && isWS w
  | _ => false

/-- The section-header keywords of the full variant's
`/(Herren|Frauen|A-|B-|C-|D-|E-|F-|G-|Junioren|Juniorinnen|Ü32)/i`,
lower-cased. -/
def headerKeywords : List JSStr :=
  [str "herren", str "frauen", str "a-", str "b-", str "c-", str "d-",
   str "e-", str "f-", str "g-", str "junioren", str "juniorinnen", str "ü32"]

/-- `isHeaderSection`: case-insensitive substring test against the
keyword alternation. -/
def isHeaderSection (l : JSStr) : Bool :=
  headerKeywords.any (fun k => containsL (lowerStr l) k)

/-- The boilerplate skip list
`/^Kursiv|^Ergebnisse|^VEREINSSPIELPLAN|^Seite/i` of the venue loop. -/
def skipLine (l : JSStr) : Bool :=
  [str "kursiv", str "ergebnisse", str "vereinsspielplan", str "seite"].any
    (fun k => startsWithL (lowerStr l) k)

/-- A tokenized row before venue accumulation (`GameRaw` in the source).
The source also stores a `lineIdx` field, but no code ever reads it, so
it is omitted from the model.  `section` is a Lean keyword, hence the
field is called `sectionName`. -/
structure GameRaw where
  spieltyp : JSStr
  spielklasse : JSStr
  date : JSStr
  time : JSStr
  pairing : JSStr
  venue : JSStr
  sectionName : JSStr
deriving DecidableEq

/-- The output record (`GameItem` in the source). -/
structure GameItem where
  id : JSStr
  date : JSStr
  time : JSStr
  dt : JSStr
  sectionName : JSStr
  competition : JSStr
  homeTeam : JSStr
  awayTeam : JSStr
  isHome : Bool
  venue : JSStr
  suggestedField : Option FieldName
  assignedField : Option FieldName
deriving DecidableEq

/-- Tokenize one classified row line: re-run the type match
`^(FS|ME|PO)\s+(.*)$` (the greedy `\s+` strips the whole whitespace run
after the code) and then the date/time pattern on the remainder.
Returns `(spieltyp, spielklasse, date, time, pairing)`. -/
def rowMatch (l : JSStr) : Option (JSStr × JSStr × JSStr × JSStr × JSStr) :=
  match l with
  | a :: b :: w :: lrest =>
    if matchCodes.contains [a, b] && isWS w then
      match scanDT [] ((w :: lrest).dropWhile (fun c => isWS c)) with
      | some (klasse0, date, time, pairing0) =>
        some ([a, b], trimStr klasse0, date, time, trimStr pairing0)
      | none => none
    else none
  | _ => none

/-- The main tokenizer loop of `parseBFVText`, as a line-at-a-time state
machine.  The third argument models the inner venue-accumulation
`while` loop of the source: `some (r, acc)` means row `r` has been
tokenized and `acc` holds its venue text so far; the row is pushed when
a row-start or section-header line (or the end of input) closes the
accumulation, exactly where the source's `i = j - 1` hands control back
to the outer `for`. -/
def mainLoop : List JSStr → JSStr → Option (GameRaw × JSStr) → List GameRaw
  | [], _, none => []
  | [], _, some (r, acc) => [{ r with venue := trimStr acc }]
  | l :: ls, cur, none =>
    if isHeaderSection l then mainLoop ls l none
    else if isRowStart l then
      match rowMatch l with
      | some (typ, klasse, date, time, pairing) =>
        mainLoop ls cur (some (⟨typ, klasse, date, time, pairing, [], cur⟩, []))
      | none => mainLoop ls cur none
    else mainLoop ls cur none
  | l :: ls, cur, some (r, acc) =>
    if isRowStart l || isHeaderSection l then
      { r with venue := trimStr acc } ::
        (if isHeaderSection l then mainLoop ls l none
         else
           match rowMatch l with
           | some (typ, klasse, date, time, pairing) =>
             mainLoop ls cur (some (⟨typ, klasse, date, time, pairing, [], cur⟩, []))
           | none => mainLoop ls cur none)
    else if skipLine l then mainLoop ls cur (some (r, acc))
    else mainLoop ls cur (some (r, acc ++ (if acc.isEmpty then [] else [' ']) ++ l))

/-- The line normalization of `parseBFVText`:
`txt.split(/\r?\n/).map(l => l.replace(/ /g, " ").trim()).filter(l => l.length > 0)`. -/
def normalizeLines (txt : JSStr) : List JSStr :=
  ((splitLines txt).map (fun l => trimStr (l.map nbspFix))).filter
    (fun l => decide (0 < l.length))

/-- The `GameRaw` list a text tokenizes to. -/
def rawsOfText (txt : JSStr) : List GameRaw :=
  mainLoop (normalizeLines txt) [] none

/-- `makeId` from the source:
`date + "_" + time + "_" + normalizeSpaces(pairing).slice(0, 60)`. -/
def makeId (gr : GameRaw) : JSStr :=
  gr.date ++ '_' :: gr.time ++ '_' :: (normalizeSpaces gr.pairing).take 60

/-- The per-row record assembly (`mapRawToGame` in the source; the full
variant inlines the identical body in its `.map`). -/
def mapRawToGame (gr : GameRaw) : Option GameItem :=
  if upperStr gr.time = str "SPIELFREI" then none
  else
    let split := detectHomeAndSplit gr.pairing
    let iso := toISODate gr.date
    let dt := iso ++ 'T' ::
      (if gr.time.length = 4 then '0' :: gr.time else gr.time) ++ str ":00"
    let competition := trimStr (gr.spieltyp ++ ' ' :: gr.spielklasse)
    let sf := if split.isHome then suggestFieldFromVenue gr.venue else none
    some
      { id := makeId gr
        date := iso
        time := gr.time
        dt := dt
        sectionName := gr.sectionName
        competition := competition
        homeTeam := split.homeTeam
        awayTeam := split.awayTeam
        isHome := split.isHome
        venue := gr.venue
        suggestedField := sf
        assignedField := sf }

/-- Code-point lexicographic string comparison: the model of
`a.localeCompare(b) < 0` on the all-ASCII `dt` keys. -/
def ltStr : JSStr → JSStr → Bool
  | [], [] => false
  | [], _ :: _ => true
  | _ :: _, [] => false
  | a :: as, b :: bs => if a = b then ltStr as bs else decide (a < b)

/-- The comparator `(a, b) => a.dt.localeCompare(b.dt)` as a strict
order on records. -/
def ltGame (a b : GameItem) : Bool := ltStr a.dt b.dt

/-- The record list before the final sort:
`raws.map(...).filter(g => g !== null)`. -/
def parseRecords (txt : JSStr) : List GameItem :=
  (rawsOfText txt).filterMap mapRawToGame

/-- `parseBFVText` from the source (full variant): tokenize, assemble,
filter, and stably sort by the combined date-time key `dt`. -/
def parseBFVText (txt : JSStr) : List GameItem :=
  stableSort ltGame (parseRecords txt)

/-- Ascending order of the output list under the `dt` comparator:
`ltGame b a = false` for every consecutive pair says the sort key is
non-decreasing. -/
def dtOrdered : List GameItem → Prop
  | [] => True
  | [_] => True
  | a :: b :: rest => ltGame b a = false ∧ dtOrdered (b :: rest)

/-- Non-increasing lengths along a list (the order the source's
`sort((a, b) => b.length - a.length)` establishes). -/
def lenDescB : List JSStr → Bool
  | [] => true
  | x :: xs => xs.all (fun y => decide (y.length ≤ x.length)) && lenDescB xs

/-- The first character, when present, is not whitespace. -/
def headNotWS : JSStr → Prop
  | [] => True
  | c :: _ => isWS c = false

/-- The last character, when present, is not whitespace. -/
def lastNotWS : JSStr → Prop
  | [] => True
  | [c] => isWS c = false
  | _ :: c :: cs => lastNotWS (c :: cs)

/-- No two adjacent whitespace characters. -/
def noDoubleWS : JSStr → Prop
  | [] => True
  | [_] => True
  | a :: b :: rest => (isWS a = false ∨ isWS b = false) ∧ noDoubleWS (b :: rest)

theorem ltStr_irrefl (a : JSStr) : ltStr a a = false := by
  induction a with
  | nil => rfl
  | cons c cs ih => simp [ltStr, ih]

theorem ltStr_asymm : ∀ a b : JSStr, ltStr a b = true → ltStr b a = false
  | [], [], h => by simp [ltStr] at h
  | [], _ :: _, _ => by simp [ltStr]
  | _ :: _, [], h => by simp [ltStr] at h
  | a :: as, b :: bs, h => by
    by_cases hab : a = b
    · subst hab
      simp only [ltStr, if_pos rfl] at h ⊢
      exact ltStr_asymm as bs h
    · simp only [ltStr, if_neg hab, decide_eq_true_eq] at h
      simp only [ltStr, if_neg (Ne.symm hab), decide_eq_false_iff_not]
      exact Char.lt_asymm h

theorem ltStr_trans : ∀ a b c : JSStr,
    ltStr a b = true → ltStr b c = true → ltStr a c = true
  | [], _, [], _, hbc => by
    cases hbc' : ltStr _ ([] : JSStr) <;> simp_all [ltStr_asymm]
  | [], _, _ :: _, _, _ => by simp [ltStr]
  | _ :: _, [], _, hab, _ => by simp [ltStr] at hab
  | a :: as, b :: bs, [], _, hbc => by simp [ltStr] at hbc
  | a :: as, b :: bs, c :: cs, hab, hbc => by
    by_cases h1 : a = b <;> by_cases h2 : b = c
    · subst h1; subst h2
      simp only [ltStr, if_pos rfl] at hab hbc ⊢
      exact ltStr_trans as bs cs hab hbc
    · subst h1
      simpa [ltStr, h2] using hbc
    · subst h2
      simpa [ltStr, h1] using hab
    · simp only [ltStr, if_neg h1, decide_eq_true_eq] at hab
      simp only [ltStr, if_neg h2, decide_eq_true_eq] at hbc
      have hac : a < c := lt_trans hab hbc
      have : a ≠ c := ne_of_lt hac
      simp [ltStr, this, hac]

theorem ltStr_connex : ∀ a b : JSStr,
    ltStr a b = false → ltStr b a = false → a = b
  | [], [], _, _ => rfl
  | [], _ :: _, h, _ => by simp [ltStr] at h
  | _ :: _, [], _, h => by simp [ltStr] at h
  | a :: as, b :: bs, hab, hba => by
    by_cases h : a = b
    · subst h
      simp only [ltStr, if_pos rfl] at hab hba
      rw [ltStr_connex as bs hab hba]
    · simp only [ltStr, if_neg h, decide_eq_false_iff_not, not_lt] at hab
      simp only [ltStr, if_neg (Ne.symm h), decide_eq_false_iff_not, not_lt] at hba
      exact absurd (le_antisymm hba hab) h

theorem le_ltStr_trans {a b c : JSStr} (hab : ltStr a b = false)
    (hbc : ltStr b c = false) : ltStr a c = false := by
  by_cases h1 : ltStr b a = true
  · by_cases h2 : ltStr c b = true
    · cases hac : ltStr a c
      · rfl
      · exact absurd (ltStr_trans _ _ _ (ltStr_trans _ _ _ h2 h1) hac)
          (by simp [ltStr_irrefl])
    · have := ltStr_connex b c hbc (by simpa using h2)
      subst this; exact hab
  · have := ltStr_connex a b hab (by simpa using h1)
    subst this; exact hbc

theorem mem_insBefore {lt : α → α → Bool} {x a : α} :
    ∀ l : List α, a ∈ insBefore lt x l ↔ a = x ∨ a ∈ l := by
  intro l
  induction l with
  | nil => simp [insBefore]
  | cons y ys ih =>
    by_cases h : lt x y
    · simp [insBefore, h]
    · simp only [insBefore, if_neg h, List.mem_cons, ih]
      tauto

theorem mem_stableSort_aux {lt : α → α → Bool} {a : α} :
    ∀ (l acc : List α),
      a ∈ l.foldl (fun acc x => insBefore lt x acc) acc ↔ a ∈ acc ∨ a ∈ l := by
  intro l
  induction l with
  | nil => simp
  | cons x xs ih =>
    intro acc
    simp only [List.foldl_cons, ih, mem_insBefore, List.mem_cons]
    tauto

/-- Membership-preservation of the stable sort (it is a permutation). -/
theorem mem_stableSort {lt : α → α → Bool} {a : α} (l : List α) :
    a ∈ stableSort lt l ↔ a ∈ l := by
  simpa [stableSort] using @mem_stableSort_aux _ lt a l []

theorem dtOrdered_cons {a : GameItem} {l : List GameItem}
    (h1 : ∀ b ∈ l, ltGame b a = false) (h2 : dtOrdered l) :
    dtOrdered (a :: l) := by
  cases l with
  | nil => trivial
  | cons b bs => exact ⟨h1 b (List.mem_cons_self b bs), h2⟩

theorem dtOrdered_tail {a : GameItem} {l : List GameItem}
    (h : dtOrdered (a :: l)) : dtOrdered l := by
  cases l with
  | nil => trivial
  | cons b bs => exact h.2

theorem dtOrdered_head_le {a : GameItem} {l : List GameItem}
    (h : dtOrdered (a :: l)) : ∀ b ∈ l, ltGame b a = false := by
  induction l generalizing a with
  | nil => intro b hb; cases hb
  | cons c cs ih =>
    intro b hb
    rcases List.mem_cons.mp hb with rfl | hb'
    · exact h.1
    · exact le_ltStr_trans (ih h.2 b hb') h.1

theorem insBefore_ordered {x : GameItem} :
    ∀ {l : List GameItem}, dtOrdered l → dtOrdered (insBefore ltGame x l) := by
  intro l
  induction l with
  | nil => intro _; trivial
  | cons y ys ih =>
    intro h
    by_cases hxy : ltGame x y
    · simp only [insBefore, if_pos hxy]
      refine dtOrdered_cons ?_ h
      intro b hb
      rcases List.mem_cons.mp hb with rfl | hb'
      · exact ltStr_asymm _ _ hxy
      · exact le_ltStr_trans (dtOrdered_head_le h b hb') (ltStr_asymm _ _ hxy)
    · simp only [insBefore, if_neg hxy]
      refine dtOrdered_cons ?_ (ih (dtOrdered_tail h))
      intro b hb
      rcases (mem_insBefore _).mp hb with rfl | hb'
      · simpa using hxy
      · exact dtOrdered_head_le h b hb'

theorem stableSort_ordered_aux :
    ∀ (l acc : List GameItem), dtOrdered acc →
      dtOrdered (l.foldl (fun acc x => insBefore ltGame x acc) acc) := by
  intro l
  induction l with
  | nil => intro acc h; exact h
  | cons x xs ih =>
    intro acc h
    exact ih _ (insBefore_ordered h)

/-- The sorted output has non-decreasing `dt` keys. -/
theorem stableSort_ordered (l : List GameItem) :
    dtOrdered (stableSort ltGame l) :=
  stableSort_ordered_aux l [] trivial

theorem filter_insBefore_ne {x : GameItem} {k : JSStr} (hx : x.dt ≠ k) :
    ∀ l : List GameItem,
      (insBefore ltGame x l).filter (fun g => decide (g.dt = k)) =
        l.filter (fun g => decide (g.dt = k)) := by
  intro l
  induction l with
  | nil => simp [insBefore, hx]
  | cons y ys ih =>
    by_cases hxy : ltGame x y
    · simp [insBefore, hxy, hx]
    · simp only [insBefore, if_neg hxy]
      by_cases hy : y.dt = k <;> simp [List.filter_cons, hy, ih]

theorem filter_insBefore_eq {x : GameItem} {k : JSStr} (hx : x.dt = k) :
    ∀ l : List GameItem, dtOrdered l →
      (insBefore ltGame x l).filter (fun g => decide (g.dt = k)) =
        l.filter (fun g => decide (g.dt = k)) ++ [x] := by
  intro l
  induction l with
  | nil => simp [insBefore, hx]
  | cons y ys ih =>
    intro hord
    by_cases hxy : ltGame x y
    · -- every element of y :: ys is strictly above x, so none has key k
      have hxy' : ltStr x.dt y.dt = true := hxy
      have hall : ∀ b ∈ y :: ys, ltStr x.dt b.dt = true := by
        intro b hb
        rcases List.mem_cons.mp hb with rfl | hb'
        · exact hxy'
        · have hba : ltStr b.dt y.dt = false := dtOrdered_head_le hord b hb'
          by_contra hxb
          have hxb' : ltStr x.dt b.dt = false := by
            cases h : ltStr x.dt b.dt
            · rfl
            · exact absurd h hxb
          cases hbx : ltStr b.dt x.dt with
          | true => exact absurd (ltStr_trans _ _ _ hbx hxy') (by simp [hba])
          | false =>
            have heq := ltStr_connex _ _ hxb' hbx
            rw [heq] at hxy'
            exact absurd hxy' (by simp [hba])
      have hnone : (y :: ys).filter (fun g => decide (g.dt = k)) = [] := by
        rw [List.filter_eq_nil_iff]
        intro b hb
        have hlt := hall b hb
        have : x.dt ≠ b.dt := by
          intro he
          rw [← he] at hlt
          exact absurd hlt (by simp [ltStr_irrefl])
        simpa [← hx] using Ne.symm this
      simp [insBefore, hxy, hnone, List.filter_cons, hx]
    · simp only [insBefore, if_neg hxy]
      by_cases hy : y.dt = k <;>
        simp [List.filter_cons, hy, ih (dtOrdered_tail hord)]

theorem stableSort_filter_aux (k : JSStr) :
    ∀ (l acc : List GameItem), dtOrdered acc →
      (l.foldl (fun acc x => insBefore ltGame x acc) acc).filter
          (fun g => decide (g.dt = k)) =
        acc.filter (fun g => decide (g.dt = k)) ++
          l.filter (fun g => decide (g.dt = k)) := by
  intro l
  induction l with
  | nil => intro acc _; simp
  | cons x xs ih =>
    intro acc hord
    simp only [List.foldl_cons]
    rw [ih _ (insBefore_ordered hord)]
    by_cases hx : x.dt = k
    · rw [filter_insBefore_eq hx _ hord]
      simp [List.filter_cons, hx]
    · rw [filter_insBefore_ne hx]
      simp [List.filter_cons, hx]

/-- Stability of the sort: for every key value, the records carrying
that key appear in the sorted output in their original order. -/
theorem stableSort_filter (k : JSStr) (l : List GameItem) :
    (stableSort ltGame l).filter (fun g => decide (g.dt = k)) =
      l.filter (fun g => decide (g.dt = k)) := by
  simpa [stableSort] using stableSort_filter_aux k l [] trivial

/-- Every record of the sorted parse output is a record of the
pre-sort assembly stage, and conversely. -/
theorem mem_parseBFVText {g : GameItem} {txt : JSStr} :
    g ∈ parseBFVText txt ↔ g ∈ parseRecords txt :=
  mem_stableSort _

theorem mapRawToGame_away {gr : GameRaw} {g : GameItem}
    (hmap : mapRawToGame gr = some g) (h : g.isHome = false) :
    g.suggestedField = none := by
  by_cases hsf : upperStr gr.time = str "SPIELFREI"
  · simp [mapRawToGame, hsf] at hmap
  · simp only [mapRawToGame, if_neg hsf] at hmap
    obtain rfl := Option.some.inj hmap
    simp only at h
    simp [h]

/-- C2.  For every input row whose kickoff field equals the sentinel
"SPIELFREI" under case-insensitive comparison, the assembly step
produces no MatchRecord for that row: the SPIELFREI filter removes it
before a record is built. -/
theorem c2_spielfrei_filter (gr : GameRaw)
    (h : upperStr gr.time = str "SPIELFREI") : mapRawToGame gr = none := by
  simp [mapRawToGame, h]

theorem c2_witness :
    mapRawToGame
      ⟨str "ME", str "Gruppe", str "23.09.2025", str "Spielfrei",
        str "(SG) TSV Lonnerstadt", [], []⟩ = none :=
  c2_spielfrei_filter _ (by decide)

/-- C4.  The full output list of `parseBFVText` has a non-decreasing
`dt` sort key across consecutive records, and the sort is stable: for
every key value, the records carrying that key keep the order they had
in the unsorted assembly stage (i.e. original row order). -/
theorem c4_sorted_and_stable :
    ∀ txt : JSStr, dtOrdered (parseBFVText txt) ∧
      ∀ k : JSStr, (parseBFVText txt).filter (fun g => decide (g.dt = k)) =
        (parseRecords txt).filter (fun g => decide (g.dt = k)) :=
  fun _ => ⟨stableSort_ordered _, fun k => stableSort_filter k _⟩

/-- C5.  Every record of the parse output with `isHome = false` (an
away fixture) carries no suggested field. -/
theorem c5_away_fixture_no_field (txt : JSStr) (g : GameItem)
    (hg : g ∈ parseBFVText txt) (h : g.isHome = false) :
    g.suggestedField = none := by
  obtain ⟨gr, -, hmap⟩ := List.mem_filterMap.mp (mem_parseBFVText.mp hg)
  exact mapRawToGame_away hmap h

theorem c5_witness :
    (List.headD
        (parseBFVText (str "ME Kreisliga 22.09.2025 10:00 SC Adelsdorf TSV Lonnerstadt"))
        ⟨[], [], [], [], [], [], [], [], false, [], none, none⟩).suggestedField
      = none :=
  c5_away_fixture_no_field
    (str "ME Kreisliga 22.09.2025 10:00 SC Adelsdorf TSV Lonnerstadt") _
    (by decide) (by decide)

/-- C8.  `parseBFVText` is a total function on strings: every input
has a (unique, deterministic) record-list value, and empty or
whitespace-only input yields the empty list rather than an error. -/
theorem c8_parse_total :
    (∀ txt : JSStr, ∃ r : List GameItem, parseBFVText txt = r) ∧
      parseBFVText (str "") = [] ∧ parseBFVText (str "  \r\n\t \n ") = [] :=
  ⟨fun _ => ⟨_, rfl⟩, by decide, by decide⟩

/-- C9.  For a home fixture whose venue text (lower-cased) contains a
recognized home-ground phrase and none of the earlier away-ground
keywords, the suggested field is dispatched on the embedded pitch
number: "platz 1" gives A, else "platz 2" gives B, else "platz 3"
gives C, and with no pitch token the suggestion defaults to A. -/
theorem c9_home_ground_dispatch (v : JSStr)
    (h1 : containsL (lowerStr v) (str "am sonnenhügel") = true ∨
      containsL (lowerStr v) (str "sportgelände") = true)
    (h2 : containsL (lowerStr v) (str "frimmersdorf") = false)
    (h3 : containsL (lowerStr v) (str "vestenbergsgreuth") = false)
    (h4 : (containsL (lowerStr v) (str "weisendorf") &&
      containsL (lowerStr v) (str "kunstrasen")) = false) :
    suggestFieldFromVenue v =
      some (if containsL (lowerStr v) (str "platz 1") then FieldName.A
        else if containsL (lowerStr v) (str "platz 2") then FieldName.B
        else if containsL (lowerStr v) (str "platz 3") then FieldName.C
        else FieldName.A) := by
  have h14 : (containsL (lowerStr v) (str "am sonnenhügel") ||
      containsL (lowerStr v) (str "sportgelände")) = true := by
    rcases h1 with h | h <;> simp [h]
  simp only [suggestFieldFromVenue, h2, h3, h4, h14]
  by_cases p1 : containsL (lowerStr v) (str "platz 1") <;>
    by_cases p2 : containsL (lowerStr v) (str "platz 2") <;>
      by_cases p3 : containsL (lowerStr v) (str "platz 3") <;>
        simp [p1, p2, p3]

theorem c9_witness :
    suggestFieldFromVenue (str "Lonnerstadt, Am Sonnenhügel, Platz 2") =
      some FieldName.B := by
  have := c9_home_ground_dispatch (str "Lonnerstadt, Am Sonnenhügel, Platz 2")
    (Or.inl (by decide)) (by decide) (by decide) (by decide)
  rw [this]
  decide

theorem tryTail_someE {s d t p : JSStr} (h : tryTail s = some (d, t, p)) :
    dateShape d = true ∧ ∃ u w, s = u ++ w :: p ∧ isWS w = true := by
  simp only [tryTail] at h
  by_cases hd : dateShape (s.take 10)
  · rw [if_pos hd] at h
    cases hdrop : s.drop 10 with
    | nil => rw [hdrop] at h; simp at h
    | cons w s2 =>
      rw [hdrop] at h
      dsimp only at h
      by_cases hw : isWS w
      · rw [if_pos hw] at h
        have hs : s = s.take 10 ++ w :: s2 := by
          conv_lhs => rw [← List.take_append_drop 10 s]
          rw [hdrop]
        by_cases ht : timeShape (s2.take 5)
        · rw [if_pos ht] at h
          cases hdrop2 : s2.drop 5 with
          | nil => rw [hdrop2] at h; simp at h
          | cons w2 rest =>
            rw [hdrop2] at h
            dsimp only at h
            by_cases hw2 : isWS w2
            · rw [if_pos hw2, Option.some.injEq, Prod.mk.injEq, Prod.mk.injEq] at h
              obtain ⟨rfl, -, rfl⟩ := h
              refine ⟨hd, s.take 10 ++ w :: s2.take 5, w2, ?_, hw2⟩
              have hs2 : s2 = s2.take 5 ++ w2 :: rest := by
                conv_lhs => rw [← List.take_append_drop 5 s2]
                rw [hdrop2]
              conv_lhs => rw [hs]; rw [hs2]
              simp
            · rw [if_neg hw2] at h; simp at h
        · rw [if_neg ht] at h
          by_cases hsp : s2.take 9 = str "SPIELFREI"
          · rw [if_pos hsp] at h
            cases hdrop2 : s2.drop 9 with
            | nil => rw [hdrop2] at h; simp at h
            | cons w2 rest =>
              rw [hdrop2] at h
              dsimp only at h
              by_cases hw2 : isWS w2
              · rw [if_pos hw2, Option.some.injEq, Prod.mk.injEq, Prod.mk.injEq] at h
                obtain ⟨rfl, -, rfl⟩ := h
                refine ⟨hd, s.take 10 ++ w :: s2.take 9, w2, ?_, hw2⟩
                have hs2 : s2 = s2.take 9 ++ w2 :: rest := by
                  conv_lhs => rw [← List.take_append_drop 9 s2]
                  rw [hdrop2]
                conv_lhs => rw [hs]; rw [hs2]
                simp
              · rw [if_neg hw2] at h; simp at h
          · rw [if_neg hsp] at h; simp at h
      · rw [if_neg hw] at h; simp at h
  · rw [if_neg hd] at h; simp at h

theorem scanDT_someE :
    ∀ (s pre : JSStr) {k d t p : JSStr}, scanDT pre s = some (k, d, t, p) →
      dateShape d = true ∧ ∃ u w, s = u ++ w :: p ∧ isWS w = true := by
  intro s
  induction s with
  | nil => intro pre k d t p h; simp [scanDT] at h
  | cons c cs ih =>
    intro pre k d t p h
    simp only [scanDT] at h
    by_cases hc : isWS c
    · rw [if_pos hc] at h
      cases htt : tryTail cs with
      | some trip =>
        obtain ⟨d', t', p'⟩ := trip
        rw [htt] at h
        simp only [Option.some.injEq, Prod.mk.injEq] at h
        obtain ⟨-, rfl, -, rfl⟩ := h
        obtain ⟨hd, u, w, hcs, hw⟩ := tryTail_someE htt
        exact ⟨hd, c :: u, w, by rw [hcs]; rfl, hw⟩
      | none =>
        rw [htt] at h
        obtain ⟨hd, u, w, hcs, hw⟩ := ih (c :: pre) h
        exact ⟨hd, c :: u, w, by rw [hcs]; rfl, hw⟩
    · rw [if_neg hc] at h
      obtain ⟨hd, u, w, hcs, hw⟩ := ih (c :: pre) h
      exact ⟨hd, c :: u, w, by rw [hcs]; rfl, hw⟩

theorem rowMatch_someE {l : JSStr} {typ klasse d t p : JSStr}
    (h : rowMatch l = some (typ, klasse, d, t, p)) :
    dateShape d = true ∧
      ∃ u w p0, l = u ++ w :: p0 ∧ isWS w = true ∧ p = trimStr p0 := by
  cases l with
  | nil => simp [rowMatch] at h
  | cons a l1 =>
    cases l1 with
    | nil => simp [rowMatch] at h
    | cons b l2 =>
      cases l2 with
      | nil => simp [rowMatch] at h
      | cons w1 lrest =>
        simp only [rowMatch] at h
        by_cases hcode : matchCodes.contains [a, b] && isWS w1
        · rw [if_pos hcode] at h
          cases hsc : scanDT [] ((w1 :: lrest).dropWhile fun c => isWS c) with
          | none => rw [hsc] at h; simp at h
          | some four =>
            obtain ⟨k0, d0, t0, p0⟩ := four
            rw [hsc] at h
            simp only [Option.some.injEq, Prod.mk.injEq] at h
            obtain ⟨-, -, rfl, -, rfl⟩ := h
            obtain ⟨hd, u, w, hdec, hw⟩ := scanDT_someE _ _ hsc
            refine ⟨hd, a :: b ::
              ((w1 :: lrest).takeWhile (fun c => isWS c) ++ u), w, p0, ?_, hw, rfl⟩
            have : (w1 :: lrest) =
                (w1 :: lrest).takeWhile (fun c => isWS c) ++
                  (w1 :: lrest).dropWhile (fun c => isWS c) :=
              (List.takeWhile_append_dropWhile (fun c => isWS c) (w1 :: lrest)).symm
            conv_lhs => rw [this, hdec]
            simp
        · rw [if_neg hcode] at h; simp at h

theorem mainLoop_dateShape :
    ∀ (lines : List JSStr) (cur : JSStr) (pend : Option (GameRaw × JSStr)),
      (∀ r acc, pend = some (r, acc) → dateShape r.date = true) →
      ∀ gr ∈ mainLoop lines cur pend, dateShape gr.date = true := by
  intro lines
  induction lines with
  | nil =>
    intro cur pend hp gr hgr
    cases pend with
    | none => simp [mainLoop] at hgr
    | some ra =>
      obtain ⟨r, acc⟩ := ra
      simp only [mainLoop, List.mem_singleton] at hgr
      subst hgr
      simpa using hp r acc rfl
  | cons l ls ih =>
    intro cur pend hp gr hgr
    cases pend with
    | none =>
      simp only [mainLoop] at hgr
      by_cases hh : isHeaderSection l
      · rw [if_pos hh] at hgr
        exact ih l none (by simp) gr hgr
      · rw [if_neg hh] at hgr
        by_cases hr : isRowStart l
        · rw [if_pos hr] at hgr
          cases hm : rowMatch l with
          | none =>
            rw [hm] at hgr
            exact ih cur none (by simp) gr hgr
          | some five =>
            obtain ⟨typ, klasse, date, time, pairing⟩ := five
            rw [hm] at hgr
            refine ih cur _ ?_ gr hgr
            intro r acc he
            rw [Option.some.injEq, Prod.mk.injEq] at he
            rw [← he.1]
            simpa using (rowMatch_someE hm).1
        · rw [if_neg hr] at hgr
          exact ih cur none (by simp) gr hgr
    | some ra =>
      obtain ⟨r, acc⟩ := ra
      simp only [mainLoop] at hgr
      by_cases hcl : isRowStart l || isHeaderSection l
      · rw [if_pos hcl] at hgr
        rcases List.mem_cons.mp hgr with rfl | hgr'
        · simpa using hp r acc rfl
        · by_cases hh : isHeaderSection l
          · rw [if_pos hh] at hgr'
            exact ih l none (by simp) gr hgr'
          · rw [if_neg hh] at hgr'
            cases hm : rowMatch l with
            | none =>
              rw [hm] at hgr'
              exact ih cur none (by simp) gr hgr'
            | some five =>
              obtain ⟨typ, klasse, date, time, pairing⟩ := five
              rw [hm] at hgr'
              refine ih cur _ ?_ gr hgr'
              intro r' acc' he
              rw [Option.some.injEq, Prod.mk.injEq] at he
              rw [← he.1]
              simpa using (rowMatch_someE hm).1
      · rw [if_neg hcl] at hgr
        by_cases hsk : skipLine l
        · rw [if_pos hsk] at hgr
          refine ih cur _ ?_ gr hgr
          intro r' acc' he
          rw [Option.some.injEq, Prod.mk.injEq] at he
          rw [← he.1]
          exact hp r acc rfl
        · rw [if_neg hsk] at hgr
          refine ih cur _ ?_ gr hgr
          intro r' acc' he
          rw [Option.some.injEq, Prod.mk.injEq] at he
          rw [← he.1]
          exact hp r acc rfl

/-- C1.  A line recognized as a row start whose remainder fails the
full `<label> <DD.MM.YYYY> <HH:MM|SPIELFREI> <pairing>` pattern is
silently discarded: the tokenizer state is exactly as if the line were
absent, so no RawRow (and hence no MatchRecord) arises from it; and
every RawRow the tokenizer does emit carries a well-formed
two-digit-day, two-digit-month, four-digit-year date. -/
theorem c1_malformed_row_discarded :
    (∀ (l : JSStr) (ls : List JSStr) (cur : JSStr),
      isHeaderSection l = false → isRowStart l = true → rowMatch l = none →
        mainLoop (l :: ls) cur none = mainLoop ls cur none) ∧
    (∀ (txt : JSStr) (gr : GameRaw), gr ∈ rawsOfText txt →
      dateShape gr.date = true) := by
  constructor
  · intro l ls cur h1 h2 h3
    simp [mainLoop, h1, h2, h3]
  · intro txt gr hgr
    exact mainLoop_dateShape _ [] none (by simp) gr hgr

theorem c1_witness :
    mainLoop [str "ME garbage here"] [] none = mainLoop [] [] none ∧
      dateShape
        (List.headD (rawsOfText (str "ME Kreisliga 21.09.2025 15:00 A B"))
          ⟨[], [], [], [], [], [], []⟩).date = true :=
  ⟨c1_malformed_row_discarded.1 (str "ME garbage here") [] []
      (by decide) (by decide) (by decide),
    c1_malformed_row_discarded.2 (str "ME Kreisliga 21.09.2025 15:00 A B") _
      (by decide)⟩

theorem leftScan_someE :
    ∀ (l : List JSStr) (text : JSStr) {h r : JSStr},
      leftScan l text = some (h, r) →
        h ∈ l ∧ leftMatches h text = true ∧ r = trimStr (text.drop h.length) := by
  intro l text
  induction l with
  | nil => intro h r hs; simp [leftScan] at hs
  | cons p ps ih =>
    intro h r hs
    simp only [leftScan] at hs
    by_cases hm : leftMatches p text
    · rw [if_pos hm, Option.some.injEq, Prod.mk.injEq] at hs
      obtain ⟨rfl, rfl⟩ := hs
      exact ⟨List.mem_cons_self _ _, hm, rfl⟩
    · rw [if_neg hm] at hs
      obtain ⟨h1, h2, h3⟩ := ih hs
      exact ⟨List.mem_cons_of_mem _ h1, h2, h3⟩

theorem leftScan_noneE :
    ∀ (l : List JSStr) (text : JSStr), leftScan l text = none →
      ∀ p ∈ l, leftMatches p text = false := by
  intro l text
  induction l with
  | nil => intro _ p hp; cases hp
  | cons q qs ih =>
    intro hs p hp
    simp only [leftScan] at hs
    by_cases hm : leftMatches q text
    · rw [if_pos hm] at hs; cases hs
    · rw [if_neg hm] at hs
      rcases List.mem_cons.mp hp with rfl | hp'
      · simpa using hm
      · exact ih hs p hp'

theorem leftScan_isSome :
    ∀ (l : List JSStr) (text q : JSStr), q ∈ l → leftMatches q text = true →
      ∃ h r, leftScan l text = some (h, r) := by
  intro l text
  induction l with
  | nil => intro q hq _; cases hq
  | cons p ps ih =>
    intro q hq hm
    by_cases hp : leftMatches p text
    · exact ⟨p, trimStr (text.drop p.length), by simp [leftScan, hp]⟩
    · rcases List.mem_cons.mp hq with rfl | hq'
      · exact absurd hm (by simpa using hp)
      · obtain ⟨h, r, hs⟩ := ih q hq' hm
        exact ⟨h, r, by simp [leftScan, hp, hs]⟩

theorem lenDescB_head :
    ∀ {x : JSStr} {xs : List JSStr}, lenDescB (x :: xs) = true →
      (∀ y ∈ xs, y.length ≤ x.length) ∧ lenDescB xs = true := by
  intro x xs h
  simp only [lenDescB, Bool.and_eq_true, List.all_eq_true] at h
  exact ⟨fun y hy => by simpa using h.1 y hy, h.2⟩

theorem leftScan_longer :
    ∀ (l : List JSStr) (text q : JSStr), lenDescB l = true → q ∈ l →
      leftMatches q text = true →
      ∀ {h r : JSStr}, leftScan l text = some (h, r) → q.length ≤ h.length := by
  intro l text
  induction l with
  | nil => intro q _ hq _ _ _ _; cases hq
  | cons p ps ih =>
    intro q hlen hq hm h r hs
    simp only [leftScan] at hs
    by_cases hp : leftMatches p text
    · rw [if_pos hp, Option.some.injEq, Prod.mk.injEq] at hs
      obtain ⟨rfl, -⟩ := hs
      rcases List.mem_cons.mp hq with rfl | hq'
      · exact le_refl _
      · exact (lenDescB_head hlen).1 q hq'
    · rw [if_neg hp] at hs
      rcases List.mem_cons.mp hq with rfl | hq'
      · exact absurd hm (by simpa using hp)
      · exact ih q (lenDescB_head hlen).2 hq' hm hs

theorem sortedVariants_lenDesc : lenDescB sortedVariants = true := by decide

theorem mem_sortedVariants {p : JSStr} :
    p ∈ sortedVariants ↔ p ∈ OUR_TEAM_PREFIXES :=
  mem_stableSort _

theorem startsWithL_iff :
    ∀ (s p : JSStr), startsWithL s p = true ↔ ∃ u, s = p ++ u := by
  intro s p
  induction p generalizing s with
  | nil => simp [startsWithL]
  | cons c cs ih =>
    cases s with
    | nil =>
      simp only [startsWithL]
      constructor
      · intro h; cases h
      · rintro ⟨u, hu⟩; cases hu
    | cons d ds =>
      simp only [startsWithL, Bool.and_eq_true, decide_eq_true_eq]
      constructor
      · rintro ⟨rfl, h2⟩
        obtain ⟨u, rfl⟩ := (ih ds).mp h2
        exact ⟨u, rfl⟩
      · rintro ⟨u, hu⟩
        injection hu with h1 h2
        exact ⟨h1, (ih ds).mpr ⟨u, h2⟩⟩

theorem startsWithL_length_lt {p q : JSStr}
    (h : startsWithL q p = true) (hne : p ≠ q) : p.length < q.length := by
  obtain ⟨u, rfl⟩ := (startsWithL_iff q p).mp h
  cases u with
  | nil => exact absurd (by simp) hne
  | cons c cs => simp [Nat.lt_add_of_pos_right]

/-- C3.  If a configured variant `p` is a strict prefix of another
configured variant `q` and a pairing's normalized text matches `q`
left-anchored, the splitter reports a home fixture whose home team is
at least as long as `q` — in particular it is never the shorter
variant `p` (descending-length order, first match wins). -/
theorem c3_longer_variant_wins (p q : JSStr)
    (_hp : p ∈ OUR_TEAM_PREFIXES) (hq : q ∈ OUR_TEAM_PREFIXES)
    (hpq : startsWithL q p = true) (hne : p ≠ q)
    (t : JSStr) (hm : leftMatches q (normalizeSpaces t) = true) :
    (detectHomeAndSplit t).isHome = true ∧
      q.length ≤ (detectHomeAndSplit t).homeTeam.length ∧
      (detectHomeAndSplit t).homeTeam ≠ p := by
  have hq' : q ∈ sortedVariants := mem_sortedVariants.mpr hq
  obtain ⟨h, r, hs⟩ := leftScan_isSome sortedVariants (normalizeSpaces t) q hq' hm
  have hlen : q.length ≤ h.length :=
    leftScan_longer sortedVariants (normalizeSpaces t) q
      sortedVariants_lenDesc hq' hm hs
  have hplen : p.length < q.length := startsWithL_length_lt hpq hne
  have hde : detectHomeAndSplit t = ⟨h, r, true⟩ := by
    simp [detectHomeAndSplit, hs]
  rw [hde]
  refine ⟨rfl, hlen, ?_⟩
  intro hcontr
  have hcontr' : h = p := hcontr
  rw [hcontr'] at hlen
  exact absurd (lt_of_lt_of_le hplen hlen) (lt_irrefl _)

theorem c3_witness :
    (detectHomeAndSplit (str "TSV Lonnerstadt 2 SC Adelsdorf")).isHome = true ∧
      (str "TSV Lonnerstadt 2").length ≤
        (detectHomeAndSplit (str "TSV Lonnerstadt 2 SC Adelsdorf")).homeTeam.length ∧
      (detectHomeAndSplit (str "TSV Lonnerstadt 2 SC Adelsdorf")).homeTeam ≠
        str "TSV Lonnerstadt" :=
  c3_longer_variant_wins (str "TSV Lonnerstadt") (str "TSV Lonnerstadt 2")
    (by decide) (by decide) (by decide) (by decide)
    (str "TSV Lonnerstadt 2 SC Adelsdorf") (by decide)

/-- C6.  For every assembled MatchRecord, `isHome` is true exactly when
some configured club-name variant matches the normalized pairing text
left-anchored (the pairing starts with the variant plus a space or
equals it); right-anchored or embedded matches and the fallback yield
`isHome = false`. -/
theorem c6_isHome_iff (gr : GameRaw) (g : GameItem)
    (hmap : mapRawToGame gr = some g) :
    (g.isHome = true ↔ ∃ p ∈ OUR_TEAM_PREFIXES,
      leftMatches p (normalizeSpaces gr.pairing) = true) := by
  have hsplit : g.isHome = (detectHomeAndSplit gr.pairing).isHome := by
    by_cases hsf : upperStr gr.time = str "SPIELFREI"
    · simp [mapRawToGame, hsf] at hmap
    · simp only [mapRawToGame, if_neg hsf] at hmap
      obtain rfl := Option.some.inj hmap
      rfl
  rw [hsplit]
  constructor
  · intro hh
    simp only [detectHomeAndSplit] at hh
    cases hs : leftScan sortedVariants (normalizeSpaces gr.pairing) with
    | some pr =>
      obtain ⟨p, r⟩ := pr
      obtain ⟨h1, h2, -⟩ := leftScan_someE _ _ hs
      exact ⟨p, mem_sortedVariants.mp h1, h2⟩
    | none =>
      rw [hs] at hh
      cases hf : List.find? (rightCond (normalizeSpaces gr.pairing)) sortedVariants with
      | some p => rw [hf] at hh; cases hh
      | none => rw [hf] at hh; cases hh
  · rintro ⟨p, hp, hm⟩
    obtain ⟨h, r, hs⟩ :=
      leftScan_isSome sortedVariants (normalizeSpaces gr.pairing) p
        (mem_sortedVariants.mpr hp) hm
    simp [detectHomeAndSplit, hs]

theorem c6_witness :
    (((mapRawToGame ⟨str "ME", str "Kreisliga", str "21.09.2025", str "15:00",
        str "TSV Lonnerstadt SpVgg Reuth", [], []⟩).getD
          ⟨[], [], [], [], [], [], [], [], false, [], none, none⟩).isHome = true ↔
      ∃ p ∈ OUR_TEAM_PREFIXES,
        leftMatches p (normalizeSpaces
          ((⟨str "ME", str "Kreisliga", str "21.09.2025", str "15:00",
            str "TSV Lonnerstadt SpVgg Reuth", [], []⟩ : GameRaw)).pairing) = true) :=
  c6_isHome_iff _ _ (by decide)

theorem noDoubleWS_tail {a : Char} {t : JSStr}
    (h : noDoubleWS (a :: t)) : noDoubleWS t := by
  cases t with
  | nil => trivial
  | cons b bs => exact h.2

theorem noDoubleWS_cons_of_head {c : Char} {t : JSStr}
    (hc : isWS c = false) (ht : noDoubleWS t) : noDoubleWS (c :: t) := by
  cases t with
  | nil => trivial
  | cons d ds => exact ⟨Or.inl hc, ht⟩

theorem noDoubleWS_cons_of_next {c : Char} {t : JSStr}
    (hh : headNotWS t) (ht : noDoubleWS t) : noDoubleWS (c :: t) := by
  cases t with
  | nil => trivial
  | cons d ds => exact ⟨Or.inr hh, ht⟩

theorem lastNotWS_cons_iff {a : Char} {t : JSStr} (h : t ≠ []) :
    lastNotWS (a :: t) ↔ lastNotWS t := by
  cases t with
  | nil => exact absurd rfl h
  | cons b bs => exact Iff.rfl

theorem trimLeft_headNotWS : ∀ s : JSStr, headNotWS (trimLeft s) := by
  intro s
  induction s with
  | nil => trivial
  | cons c cs ih =>
    by_cases hc : isWS c
    · simpa [trimLeft, hc] using ih
    · simp [trimLeft, hc, headNotWS]

theorem trimRight_head (c : Char) (cs : JSStr) :
    trimRight (c :: cs) = [] ∨ ∃ t, trimRight (c :: cs) = c :: t := by
  simp only [trimRight]
  cases trimRight cs with
  | nil =>
    by_cases hc : isWS c
    · simp [hc]
    · simp [hc]
  | cons d ds => exact Or.inr ⟨d :: ds, rfl⟩

theorem trimRight_headNotWS {s : JSStr} (h : headNotWS s) :
    headNotWS (trimRight s) := by
  cases s with
  | nil => trivial
  | cons c cs =>
    rcases trimRight_head c cs with he | ⟨t, he⟩
    · rw [he]; trivial
    · rw [he]; exact h

theorem trimRight_lastNotWS : ∀ s : JSStr, lastNotWS (trimRight s) := by
  intro s
  induction s with
  | nil => trivial
  | cons c cs ih =>
    simp only [trimRight]
    cases htr : trimRight cs with
    | nil =>
      by_cases hc : isWS c
      · simp only [if_pos hc]; trivial
      · simp only [if_neg hc]
        show isWS c = false
        simpa using hc
    | cons d ds =>
      rw [htr] at ih
      exact (lastNotWS_cons_iff (by simp)).mpr ih

theorem trimLeft_eq_of_headNotWS {s : JSStr} (h : headNotWS s) :
    trimLeft s = s := by
  cases s with
  | nil => rfl
  | cons c cs =>
    have hc : isWS c = false := h
    simp [trimLeft, hc]

theorem trimRight_eq_of_lastNotWS : ∀ {s : JSStr}, lastNotWS s → trimRight s = s := by
  intro s
  induction s with
  | nil => intro _; rfl
  | cons c cs ih =>
    intro h
    cases cs with
    | nil =>
      have hc : isWS c = false := h
      simp [trimRight, hc]
    | cons d ds =>
      have hcs : trimRight (d :: ds) = d :: ds := ih h
      simp only [trimRight] at hcs ⊢
      rw [hcs]

theorem trimStr_eq_self {s : JSStr} (h1 : headNotWS s) (h2 : lastNotWS s) :
    trimStr s = s := by
  rw [trimStr, trimLeft_eq_of_headNotWS h1, trimRight_eq_of_lastNotWS h2]

theorem collapse1_true_headNotWS : ∀ s : JSStr, headNotWS (collapse1 true s) := by
  intro s
  induction s with
  | nil => trivial
  | cons c cs ih =>
    by_cases hc : isWS c
    · simpa [collapse1, hc] using ih
    · simp [collapse1, hc, headNotWS]

theorem collapse1_noDoubleWS : ∀ (s : JSStr) (b : Bool), noDoubleWS (collapse1 b s) := by
  intro s
  induction s with
  | nil => intro b; trivial
  | cons c cs ih =>
    intro b
    by_cases hc : isWS c
    · cases b with
      | true => simpa [collapse1, hc] using ih true
      | false =>
        simp only [collapse1, hc, if_true]
        exact noDoubleWS_cons_of_next (collapse1_true_headNotWS cs) (ih true)
    · simp only [collapse1, hc, if_false, Bool.false_eq_true]
      exact noDoubleWS_cons_of_head (by simpa using hc) (ih false)

theorem trimLeft_noDoubleWS : ∀ {s : JSStr}, noDoubleWS s → noDoubleWS (trimLeft s) := by
  intro s
  induction s with
  | nil => intro _; trivial
  | cons c cs ih =>
    intro h
    by_cases hc : isWS c
    · simpa [trimLeft, hc] using ih (noDoubleWS_tail h)
    · simpa [trimLeft, hc] using h

theorem trimRight_noDoubleWS : ∀ {s : JSStr}, noDoubleWS s → noDoubleWS (trimRight s) := by
  intro s
  induction s with
  | nil => intro _; trivial
  | cons c cs ih =>
    intro h
    simp only [trimRight]
    cases htr : trimRight cs with
    | nil =>
      by_cases hc : isWS c
      · simp only [if_pos hc]; trivial
      · simp only [if_neg hc]; trivial
    | cons d ds =>
      have hcs : noDoubleWS (trimRight cs) := ih (noDoubleWS_tail h)
      rw [htr] at hcs
      cases cs with
      | nil => simp [trimRight] at htr
      | cons e es =>
        rcases trimRight_head e es with he | ⟨t, he⟩
        · rw [he] at htr; cases htr
        · rw [he] at htr
          injection htr with h1 h2
          subst h1
          exact ⟨h.1, hcs⟩

theorem norm_headNotWS (s : JSStr) : headNotWS (normalizeSpaces s) :=
  trimRight_headNotWS (trimLeft_headNotWS _)

theorem norm_lastNotWS (s : JSStr) : lastNotWS (normalizeSpaces s) :=
  trimRight_lastNotWS _

theorem norm_noDoubleWS (s : JSStr) : noDoubleWS (normalizeSpaces s) :=
  trimRight_noDoubleWS (trimLeft_noDoubleWS (collapse1_noDoubleWS _ false))

theorem noDoubleWS_append_right :
    ∀ {xs ys : JSStr}, noDoubleWS (xs ++ ys) → noDoubleWS ys := by
  intro xs
  induction xs with
  | nil => intro ys h; exact h
  | cons a xs' ih => intro ys h; exact ih (noDoubleWS_tail h)

theorem lastNotWS_append :
    ∀ {xs ys : JSStr}, lastNotWS (xs ++ ys) → ys ≠ [] → lastNotWS ys := by
  intro xs
  induction xs with
  | nil => intro ys h _; exact h
  | cons a xs' ih =>
    intro ys h hne
    have hxs : xs' ++ ys ≠ [] := by
      intro he
      rcases List.append_eq_nil.mp he with ⟨-, h2⟩
      exact hne h2
    exact ih ((lastNotWS_cons_iff hxs).mp h) hne

theorem lastNotWS_append_single {xs : JSStr} {c : Char}
    (h : lastNotWS (xs ++ [c])) : isWS c = false :=
  lastNotWS_append h (by simp)

theorem norm_split {s p u : JSStr}
    (h : normalizeSpaces s = p ++ ' ' :: u) :
    u ≠ [] ∧ trimStr (' ' :: u) = u := by
  have hlast : lastNotWS (normalizeSpaces s) := norm_lastNotWS s
  have hdouble : noDoubleWS (normalizeSpaces s) := norm_noDoubleWS s
  rw [h] at hlast hdouble
  have hu : u ≠ [] := by
    intro he
    subst he
    have := lastNotWS_append_single hlast
    simp [isWS] at this
  have hspu : lastNotWS (' ' :: u) := lastNotWS_append hlast (by simp)
  have hulast : lastNotWS u := (lastNotWS_cons_iff hu).mp hspu
  have huhead : headNotWS u := by
    have hsp : noDoubleWS (' ' :: u) := noDoubleWS_append_right hdouble
    cases u with
    | nil => trivial
    | cons d ds =>
      rcases hsp.1 with h1 | h2
      · simp [isWS] at h1
      · exact h2
  refine ⟨hu, ?_⟩
  have : trimLeft (' ' :: u) = trimLeft u := by simp [trimLeft, isWS]
  rw [trimStr, this, trimLeft_eq_of_headNotWS huhead,
    trimRight_eq_of_lastNotWS hulast]

/-- C10.  Home splits are lossless: whenever the splitter reports a
home fixture, gluing the home team, one space, and the away team back
together reproduces the whitespace-normalized pairing text (and with an
empty away team the home team alone is the whole normalized pairing). -/
theorem c10_home_split_lossless (pr : JSStr)
    (hh : (detectHomeAndSplit pr).isHome = true) :
    ((detectHomeAndSplit pr).awayTeam = [] →
        (detectHomeAndSplit pr).homeTeam = normalizeSpaces pr) ∧
      ((detectHomeAndSplit pr).awayTeam ≠ [] →
        (detectHomeAndSplit pr).homeTeam ++ ' ' :: (detectHomeAndSplit pr).awayTeam =
          normalizeSpaces pr) := by
  cases hs : leftScan sortedVariants (normalizeSpaces pr) with
  | none =>
    exfalso
    simp only [detectHomeAndSplit, hs] at hh
    cases hf : List.find? (rightCond (normalizeSpaces pr)) sortedVariants with
    | some p => rw [hf] at hh; cases hh
    | none => rw [hf] at hh; cases hh
  | some pr' =>
    obtain ⟨h, r⟩ := pr'
    obtain ⟨-, hm, hr⟩ := leftScan_someE _ _ hs
    have hde : detectHomeAndSplit pr = ⟨h, r, true⟩ := by
      simp [detectHomeAndSplit, hs]
    rw [hde]
    simp only [leftMatches, Bool.or_eq_true, decide_eq_true_eq] at hm
    rcases hm with hpref | heq
    · obtain ⟨u, hu0⟩ := (startsWithL_iff _ _).mp hpref
      have hu : normalizeSpaces pr = h ++ ' ' :: u := by
        rw [hu0]; simp
      have hdrop : (normalizeSpaces pr).drop h.length = ' ' :: u := by
        rw [hu]
        exact List.drop_left h (' ' :: u)
      obtain ⟨hune, htrim⟩ := norm_split hu
      have hrr : r = u := by rw [hr, hdrop, htrim]
      subst hrr
      constructor
      · intro habs; exact absurd habs hune
      · intro _
        simp only
        rw [hu]
    · constructor
      · intro _
        simp only
        rw [← heq]
      · intro habs
        exfalso
        apply habs
        simp only
        rw [hr, ← heq]
        simp [trimStr, trimLeft, trimRight]

theorem c10_witness :
    ((detectHomeAndSplit (str "TSV Lonnerstadt SpVgg Reuth")).awayTeam = [] →
        (detectHomeAndSplit (str "TSV Lonnerstadt SpVgg Reuth")).homeTeam =
          normalizeSpaces (str "TSV Lonnerstadt SpVgg Reuth")) ∧
      ((detectHomeAndSplit (str "TSV Lonnerstadt SpVgg Reuth")).awayTeam ≠ [] →
        (detectHomeAndSplit (str "TSV Lonnerstadt SpVgg Reuth")).homeTeam ++
            ' ' :: (detectHomeAndSplit (str "TSV Lonnerstadt SpVgg Reuth")).awayTeam =
          normalizeSpaces (str "TSV Lonnerstadt SpVgg Reuth")) :=
  c10_home_split_lossless (str "TSV Lonnerstadt SpVgg Reuth") (by decide)

theorem mem_trimLeft {c : Char} (hc : isWS c = false) :
    ∀ {s : JSStr}, c ∈ s → c ∈ trimLeft s := by
  intro s
  induction s with
  | nil => intro h; cases h
  | cons a as ih =>
    intro h
    by_cases ha : isWS a
    · rcases List.mem_cons.mp h with rfl | h'
      · rw [ha] at hc; cases hc
      · simpa [trimLeft, ha] using ih h'
    · simpa [trimLeft, ha] using h

theorem mem_trimRight {c : Char} (hc : isWS c = false) :
    ∀ {s : JSStr}, c ∈ s → c ∈ trimRight s := by
  intro s
  induction s with
  | nil => intro h; cases h
  | cons a as ih =>
    intro h
    simp only [trimRight]
    cases htr : trimRight as with
    | nil =>
      rcases List.mem_cons.mp h with rfl | h'
      · simp [hc]
      · have := ih h'
        rw [htr] at this
        cases this
    | cons d ds =>
      rcases List.mem_cons.mp h with rfl | h'
      · exact List.mem_cons_self _ _
      · have := ih h'
        rw [htr] at this
        exact List.mem_cons_of_mem _ this

theorem mem_trimStr {c : Char} (hc : isWS c = false) {s : JSStr}
    (h : c ∈ s) : c ∈ trimStr s :=
  mem_trimRight hc (mem_trimLeft hc h)

theorem mem_collapse1 {c : Char} (hc : isWS c = false) :
    ∀ {s : JSStr} (b : Bool), c ∈ s → c ∈ collapse1 b s := by
  intro s
  induction s with
  | nil => intro b h; cases h
  | cons a as ih =>
    intro b h
    by_cases ha : isWS a
    · rcases List.mem_cons.mp h with rfl | h'
      · rw [ha] at hc; cases hc
      · cases b with
        | true => simpa [collapse1, ha] using ih true h'
        | false =>
          simp only [collapse1, ha, if_true]
          exact List.mem_cons_of_mem _ (ih true h')
    · simp only [collapse1, ha, if_false, Bool.false_eq_true]
      rcases List.mem_cons.mp h with rfl | h'
      · exact List.mem_cons_self _ _
      · exact List.mem_cons_of_mem _ (ih false h')

theorem normalizeSpaces_ne_nil {c : Char} {s : JSStr}
    (hc : isWS c = false) (h : c ∈ s) : normalizeSpaces s ≠ [] := by
  have hfix : nbspFix c = c := by
    have : c ≠ nbsp := by
      intro he
      rw [he] at hc
      simp [isWS, nbsp] at hc
    simp [nbspFix, this]
  have h1 : c ∈ s.map nbspFix := by
    rw [← hfix]
    exact List.mem_map_of_mem _ h
  have h2 : c ∈ collapse1 false (s.map nbspFix) := mem_collapse1 hc false h1
  exact List.ne_nil_of_mem (mem_trimStr hc h2)

theorem lastIndexOfAux_ge :
    ∀ (s p : JSStr) (k j : Nat), lastIndexOfAux s p k = some j → k ≤ j := by
  intro s
  induction s with
  | nil =>
    intro p k j h
    simp only [lastIndexOfAux] at h
    by_cases hp : p.isEmpty
    · rw [if_pos hp, Option.some.injEq] at h; omega
    · rw [if_neg hp] at h; cases h
  | cons c cs ih =>
    intro p k j h
    simp only [lastIndexOfAux] at h
    cases haux : lastIndexOfAux cs p (k + 1) with
    | some j' =>
      rw [haux, Option.some.injEq] at h
      subst h
      have := ih p (k + 1) j' haux
      omega
    | none =>
      rw [haux] at h
      by_cases hsw : startsWithL (c :: cs) p
      · rw [if_pos hsw, Option.some.injEq] at h; omega
      · rw [if_neg hsw] at h; cases h

theorem lastIndexOfAux_lb :
    ∀ (s p : JSStr) (k i : Nat), i ≤ s.length →
      startsWithL (s.drop i) p = true →
      ∃ j, lastIndexOfAux s p k = some j ∧ k + i ≤ j := by
  intro s
  induction s with
  | nil =>
    intro p k i hi hsw
    have hi0 : i = 0 := by simpa using hi
    subst hi0
    simp only [List.drop_nil] at hsw
    cases p with
    | nil => exact ⟨k, by simp [lastIndexOfAux, List.isEmpty], by omega⟩
    | cons q qs => simp [startsWithL] at hsw
  | cons c cs ih =>
    intro p k i hi hsw
    cases i with
    | zero =>
      simp only [lastIndexOfAux]
      cases haux : lastIndexOfAux cs p (k + 1) with
      | some j' =>
        have := lastIndexOfAux_ge cs p (k + 1) j' haux
        exact ⟨j', rfl, by omega⟩
      | none =>
        simp only [List.drop_zero] at hsw
        exact ⟨k, by rw [if_pos hsw], by omega⟩
    | succ i' =>
      have hi' : i' ≤ cs.length := by simpa using hi
      have hsw' : startsWithL (cs.drop i') p = true := hsw
      obtain ⟨j, hj, hjk⟩ := ih p (k + 1) i' hi' hsw'
      simp only [lastIndexOfAux, hj]
      exact ⟨j, rfl, by omega⟩

theorem lastIndexOfL_lb {s p : JSStr} {i : Nat} (hi : i ≤ s.length)
    (hsw : startsWithL (s.drop i) p = true) : i ≤ lastIndexOfL s p := by
  obtain ⟨j, hj, hjk⟩ := lastIndexOfAux_lb s p 0 i hi hsw
  simp only [lastIndexOfL, hj, Option.getD_some]
  omega

theorem endsWithL_exists {s p : JSStr} (h : endsWithL s p = true) :
    ∃ u, s = u ++ p := by
  simp only [endsWithL] at h
  by_cases hl : p.length ≤ s.length
  · rw [if_pos hl, decide_eq_true_eq] at h
    refine ⟨s.take (s.length - p.length), ?_⟩
    conv_lhs => rw [← List.take_append_drop (s.length - p.length) s]
    rw [h]
  · rw [if_neg hl] at h; cases h

theorem containsL_exists :
    ∀ {s p : JSStr}, containsL s p = true → ∃ u v, s = u ++ p ++ v := by
  intro s
  induction s with
  | nil =>
    intro p h
    simp only [containsL, List.isEmpty_iff] at h
    exact ⟨[], [], by simp [h]⟩
  | cons c cs ih =>
    intro p h
    simp only [containsL, Bool.or_eq_true] at h
    rcases h with h | h
    · obtain ⟨v, hv⟩ := (startsWithL_iff _ _).mp h
      exact ⟨[], v, by simpa using hv⟩
    · obtain ⟨u, v, huv⟩ := ih h
      exact ⟨c :: u, v, by simp [huv]⟩

theorem occurrence_pos {s p u v : JSStr} (h : s = u ++ (' ' :: p) ++ v) :
    u.length + 1 ≤ s.length ∧ startsWithL (s.drop (u.length + 1)) p = true := by
  subst h
  constructor
  · simp
  · have hre : (u ++ (' ' :: p) ++ v) = (u ++ [' ']) ++ (p ++ v) := by simp
    rw [hre]
    have hlen : u.length + 1 = (u ++ [' ']).length := by simp
    rw [hlen, List.drop_left]
    exact (startsWithL_iff _ _).mpr ⟨v, rfl⟩

theorem sortedVariants_ne_nil : ∀ p ∈ sortedVariants, p ≠ [] := by decide

theorem detect_homeTeam_ne {q : JSStr} (hq : normalizeSpaces q ≠ []) :
    (detectHomeAndSplit q).homeTeam ≠ [] := by
  cases hs : leftScan sortedVariants (normalizeSpaces q) with
  | some hr =>
    obtain ⟨h, r⟩ := hr
    have hde : detectHomeAndSplit q = ⟨h, r, true⟩ := by
      simp [detectHomeAndSplit, hs]
    rw [hde]
    exact sortedVariants_ne_nil h (leftScan_someE _ _ hs).1
  | none =>
    cases hf : List.find? (rightCond (normalizeSpaces q)) sortedVariants with
    | none =>
      have hde : detectHomeAndSplit q = ⟨normalizeSpaces q, [], false⟩ := by
        simp [detectHomeAndSplit, hs, hf]
      rw [hde]
      exact hq
    | some p =>
      have hde : detectHomeAndSplit q =
          ⟨trimStr ((normalizeSpaces q).take
            (lastIndexOfL (normalizeSpaces q) p)), p, false⟩ := by
        simp [detectHomeAndSplit, hs, hf]
      rw [hde]
      show trimStr ((normalizeSpaces q).take
        (lastIndexOfL (normalizeSpaces q) p)) ≠ []
      have hrc : rightCond (normalizeSpaces q) p = true := List.find?_some hf
      have hnep : normalizeSpaces q ≠ p := by
        have hlm := leftScan_noneE _ _ hs p (List.mem_of_find?_eq_some hf)
        intro he
        simp [leftMatches, he] at hlm
      have hocc : ∃ u v, normalizeSpaces q = u ++ (' ' :: p) ++ v := by
        simp only [rightCond, Bool.or_eq_true, decide_eq_true_eq] at hrc
        rcases hrc with (hend | heq) | hcont
        · obtain ⟨u, hu⟩ := endsWithL_exists hend
          exact ⟨u, [], by simpa using hu⟩
        · exact absurd heq hnep
        · exact containsL_exists hcont
      obtain ⟨u, v, huv⟩ := hocc
      obtain ⟨hle, hsw⟩ := occurrence_pos huv
      have hlb := lastIndexOfL_lb hle hsw
      obtain ⟨c, t, hct⟩ : ∃ c t, normalizeSpaces q = c :: t := by
        cases hnq : normalizeSpaces q with
        | nil => exact absurd hnq hq
        | cons c t => exact ⟨c, t, rfl⟩
      have hcw : isWS c = false := by
        have hh := norm_headNotWS q
        rw [hct] at hh
        exact hh
      obtain ⟨n, hn⟩ : ∃ n, lastIndexOfL (normalizeSpaces q) p = n + 1 :=
        ⟨lastIndexOfL (normalizeSpaces q) p - 1, by omega⟩
      rw [hn, hct, List.take_succ_cons]
      exact List.ne_nil_of_mem (mem_trimStr hcw (List.mem_cons_self _ _))

theorem lastNotWS_exists_mem :
    ∀ {s : JSStr}, s ≠ [] → lastNotWS s → ∃ c ∈ s, isWS c = false := by
  intro s
  induction s with
  | nil => intro h _; exact absurd rfl h
  | cons a as ih =>
    intro _ h
    cases as with
    | nil => exact ⟨a, List.mem_cons_self _ _, h⟩
    | cons b bs =>
      obtain ⟨c, hc, hcw⟩ := ih (by simp) h
      exact ⟨c, List.mem_cons_of_mem _ hc, hcw⟩

theorem rowMatch_pairing {l typ klasse d t p : JSStr}
    (hl : lastNotWS l) (h : rowMatch l = some (typ, klasse, d, t, p)) :
    ∃ c ∈ p, isWS c = false := by
  obtain ⟨-, u, w, p0, hdec, hw, hp⟩ := rowMatch_someE h
  rw [hdec] at hl
  have hp0ne : p0 ≠ [] := by
    intro he
    subst he
    have hwf : isWS w = false := lastNotWS_append_single hl
    rw [hw] at hwf
    cases hwf
  have hwp : lastNotWS (w :: p0) := lastNotWS_append hl (by simp)
  have hp0 : lastNotWS p0 := (lastNotWS_cons_iff hp0ne).mp hwp
  obtain ⟨c, hc, hcw⟩ := lastNotWS_exists_mem hp0ne hp0
  exact ⟨c, by rw [hp]; exact mem_trimStr hcw hc, hcw⟩

theorem mainLoop_pairing :
    ∀ (lines : List JSStr) (cur : JSStr) (pend : Option (GameRaw × JSStr)),
      (∀ l ∈ lines, lastNotWS l) →
      (∀ r acc, pend = some (r, acc) → ∃ c ∈ r.pairing, isWS c = false) →
      ∀ gr ∈ mainLoop lines cur pend, ∃ c ∈ gr.pairing, isWS c = false := by
  intro lines
  induction lines with
  | nil =>
    intro cur pend hl hp gr hgr
    cases pend with
    | none => simp [mainLoop] at hgr
    | some ra =>
      obtain ⟨r, acc⟩ := ra
      simp only [mainLoop, List.mem_singleton] at hgr
      subst hgr
      simpa using hp r acc rfl
  | cons l ls ih =>
    intro cur pend hl hp gr hgr
    have hlhead : lastNotWS l := hl l (List.mem_cons_self _ _)
    have hltail : ∀ l' ∈ ls, lastNotWS l' := fun l' h' =>
      hl l' (List.mem_cons_of_mem _ h')
    cases pend with
    | none =>
      simp only [mainLoop] at hgr
      by_cases hh : isHeaderSection l
      · rw [if_pos hh] at hgr
        exact ih l none hltail (by simp) gr hgr
      · rw [if_neg hh] at hgr
        by_cases hr : isRowStart l
        · rw [if_pos hr] at hgr
          cases hm : rowMatch l with
          | none =>
            rw [hm] at hgr
            exact ih cur none hltail (by simp) gr hgr
          | some five =>
            obtain ⟨typ, klasse, date, time, pairing⟩ := five
            rw [hm] at hgr
            refine ih cur _ hltail ?_ gr hgr
            intro r acc he
            rw [Option.some.injEq, Prod.mk.injEq] at he
            rw [← he.1]
            simpa using rowMatch_pairing hlhead hm
        · rw [if_neg hr] at hgr
          exact ih cur none hltail (by simp) gr hgr
    | some ra =>
      obtain ⟨r, acc⟩ := ra
      simp only [mainLoop] at hgr
      by_cases hcl : isRowStart l || isHeaderSection l
      · rw [if_pos hcl] at hgr
        rcases List.mem_cons.mp hgr with rfl | hgr'
        · simpa using hp r acc rfl
        · by_cases hh : isHeaderSection l
          · rw [if_pos hh] at hgr'
            exact ih l none hltail (by simp) gr hgr'
          · rw [if_neg hh] at hgr'
            cases hm : rowMatch l with
            | none =>
              rw [hm] at hgr'
              exact ih cur none hltail (by simp) gr hgr'
            | some five =>
              obtain ⟨typ, klasse, date, time, pairing⟩ := five
              rw [hm] at hgr'
              refine ih cur _ hltail ?_ gr hgr'
              intro r' acc' he
              rw [Option.some.injEq, Prod.mk.injEq] at he
              rw [← he.1]
              simpa using rowMatch_pairing hlhead hm
      · rw [if_neg hcl] at hgr
        by_cases hsk : skipLine l
        · rw [if_pos hsk] at hgr
          refine ih cur _ hltail ?_ gr hgr
          intro r' acc' he
          rw [Option.some.injEq, Prod.mk.injEq] at he
          rw [← he.1]
          exact hp r acc rfl
        · rw [if_neg hsk] at hgr
          refine ih cur _ hltail ?_ gr hgr
          intro r' acc' he
          rw [Option.some.injEq, Prod.mk.injEq] at he
          rw [← he.1]
          exact hp r acc rfl

theorem normalizeLines_lastNotWS (txt : JSStr) :
    ∀ l ∈ normalizeLines txt, lastNotWS l := by
  intro l hl
  simp only [normalizeLines, List.mem_filter, List.mem_map] at hl
  obtain ⟨⟨l0, -, rfl⟩, -⟩ := hl
  simpa [trimStr] using trimRight_lastNotWS (trimLeft (l0.map nbspFix))

theorem mapRawToGame_homeTeam {gr : GameRaw} {g : GameItem}
    (hmap : mapRawToGame gr = some g) :
    g.homeTeam = (detectHomeAndSplit gr.pairing).homeTeam := by
  by_cases hsf : upperStr gr.time = str "SPIELFREI"
  · simp [mapRawToGame, hsf] at hmap
  · simp only [mapRawToGame, if_neg hsf] at hmap
    obtain rfl := Option.some.inj hmap
    rfl

/-- C7.  Every MatchRecord in the parse output has a non-empty home
team: the left-anchored match, the right-anchored match and the lossy
fallback all place a non-empty string into `homeTeam` (input lines are
trimmed and non-empty, so the pairing always keeps a non-whitespace
character). -/
theorem c7_homeTeam_nonempty (txt : JSStr) (g : GameItem)
    (hg : g ∈ parseBFVText txt) : g.homeTeam ≠ [] := by
  obtain ⟨gr, hgr, hmap⟩ := List.mem_filterMap.mp (mem_parseBFVText.mp hg)
  obtain ⟨c, hc, hcw⟩ :=
    mainLoop_pairing _ [] none (normalizeLines_lastNotWS txt) (by simp) gr hgr
  rw [mapRawToGame_homeTeam hmap]
  exact detect_homeTeam_ne (normalizeSpaces_ne_nil hcw hc)

theorem c7_witness :
    (List.headD
        (parseBFVText (str "ME Kreisliga 21.09.2025 15:00 Unrecognized Pairing"))
        ⟨[], [], [], [], [], [], [], [], false, [], none, none⟩).homeTeam ≠ [] :=
  c7_homeTeam_nonempty
    (str "ME Kreisliga 21.09.2025 15:00 Unrecognized Pairing") _ (by decide)
